import Mathlib

/-!
Shallow embedding of the YAML override-merge engine of `magic-ansible`
(`src/pkg/api/utils.go` and `src/pkg/api/api.go`), over the `yaml.Node`
representation of `gopkg.in/yaml.v3`.

A Go `yaml.Node` carries a `Kind`, a `Tag`, a `Value` and a flat `Content`
slice of children simultaneously; a mapping stores its pairs as alternating
key/value entries of `Content` (even length for well-formed mappings).
The merge functions mutate the base tree in place; the embedding is the
corresponding pure state-passing version: each function returns the new
value of the node it would have mutated.
-/

namespace MagicAnsible

/-- The `yaml.Kind` values the code inspects.  `zero` is the zero value of the
Go type (`yaml.Node{}` before any successful unmarshal has `Kind == 0`). -/
inductive Kind where
  | zero
  | document
  | sequence
  | mapping
  | scalar
  | alias
deriving DecidableEq, Repr

/-- Embedding of `yaml.Node`: kind, tag, value and the flat `Content` slice.
A mapping's content alternates key and value nodes. -/
inductive Node where
  | mk (kind : Kind) (tag : String) (value : String) (content : List Node) : Node
deriving Repr

def Node.kind : Node → Kind
  | .mk k _ _ _ => k

def Node.tag : Node → String
  | .mk _ t _ _ => t

def Node.value : Node → String
  | .mk _ _ v _ => v

def Node.content : Node → List Node
  | .mk _ _ _ c => c

/-- The `node.Value`/`node.Tag` assignment (`root.Value = override.Value` etc.),
keeping all other fields. -/
def Node.setValueTag (n : Node) (v t : String) : Node :=
  .mk n.kind t v n.content

/-- The `node.Content = c` assignment, keeping all other fields. -/
def Node.setContent (n : Node) (c : List Node) : Node :=
  .mk n.kind n.tag n.value c

@[simp] theorem Node.kind_mk (k t v c) : (Node.mk k t v c).kind = k := rfl
@[simp] theorem Node.tag_mk (k t v c) : (Node.mk k t v c).tag = t := rfl
@[simp] theorem Node.value_mk (k t v c) : (Node.mk k t v c).value = v := rfl
@[simp] theorem Node.content_mk (k t v c) : (Node.mk k t v c).content = c := rfl

@[simp] theorem Node.kind_setContent (n c) : (Node.setContent n c).kind = n.kind := rfl
@[simp] theorem Node.tag_setContent (n c) : (Node.setContent n c).tag = n.tag := rfl
@[simp] theorem Node.value_setContent (n c) : (Node.setContent n c).value = n.value := rfl
@[simp] theorem Node.content_setContent (n c) : (Node.setContent n c).content = c := rfl

@[simp] theorem Node.kind_setValueTag (n v t) : (Node.setValueTag n v t).kind = n.kind := rfl
@[simp] theorem Node.tag_setValueTag (n v t) : (Node.setValueTag n v t).tag = t := rfl
@[simp] theorem Node.value_setValueTag (n v t) : (Node.setValueTag n v t).value = v := rfl
@[simp] theorem Node.content_setValueTag (n v t) :
    (Node.setValueTag n v t).content = n.content := rfl

mutual

/-- Decidable structural equality on nodes (pointer distinctions aside, this is
what value equality of two trees means). -/
def Node.deq : (a b : Node) → Decidable (a = b)
  | .mk k1 t1 v1 c1, .mk k2 t2 v2 c2 =>
    match decEq k1 k2, decEq t1 t2, decEq v1 v2, Node.deqList c1 c2 with
    | isTrue hk, isTrue ht, isTrue hv, isTrue hc => isTrue (by rw [hk, ht, hv, hc])
    | isFalse hk, _, _, _ => isFalse (by intro h; cases h; exact hk rfl)
    | _, isFalse ht, _, _ => isFalse (by intro h; cases h; exact ht rfl)
    | _, _, isFalse hv, _ => isFalse (by intro h; cases h; exact hv rfl)
    | _, _, _, isFalse hc => isFalse (by intro h; cases h; exact hc rfl)

/-- Decidable structural equality on lists of nodes. -/
def Node.deqList : (a b : List Node) → Decidable (a = b)
  | [], [] => isTrue rfl
  | [], _ :: _ => isFalse (by intro h; cases h)
  | _ :: _, [] => isFalse (by intro h; cases h)
  | a :: as, b :: bs =>
    match Node.deq a b, Node.deqList as bs with
    | isTrue h1, isTrue h2 => isTrue (by rw [h1, h2])
    | isFalse h1, _ => isFalse (by intro h; cases h; exact h1 rfl)
    | _, isFalse h2 => isFalse (by intro h; cases h; exact h2 rfl)

end

instance : DecidableEq Node := Node.deq

/-! ### Views of a mapping's flat content

Go iterates a mapping's `Content` as `for i := 0; i < len; i += 2` with an
`i+1 >= len` guard, i.e. over consecutive key/value pairs, ignoring a
dangling trailing key when the length is odd.  `pairsOf` is that view. -/

/-- Chunk a flat mapping content list into its key/value pairs
(a dangling last entry of an odd-length list is dropped, as the guarded
Go loops do). -/
def pairsOf : List Node → List (Node × Node)
  | k :: v :: rest => (k, v) :: pairsOf rest
  | _ => []

/-- The key strings of a flat mapping content list, in order. -/
def keysOf (c : List Node) : List String :=
  (pairsOf c).map fun p => p.1.value

/-- First value whose key node's string value equals `key`, matching the way
`mergeMappingNodes` compares keys (`nodeKey.Value == overrideKey.Value`,
with no check of the key node's kind). -/
def lookupKey : List Node → String → Option Node
  | k :: v :: rest, key => if k.value = key then some v else lookupKey rest key
  | _, _ => none

/-- First value whose key node is a scalar with string value `key`, matching
the guarded pair scans of `patchExamples` and `shouldDropItem`
(`keyNode.Kind == yaml.ScalarNode && keyNode.Value == key`). -/
def lookupScalarKey : List Node → String → Option Node
  | k :: v :: rest, key =>
    if k.kind = .scalar ∧ k.value = key then some v else lookupScalarKey rest key
  | _, _ => none

/-! ### Identity keys, drop marker, sequence element removal
(`findIdentifyingKeyValue`, `shouldDropItem`, `removeItemFromSequence`
in `src/pkg/api/utils.go`). -/

/-- Embeds `keyValuePair` from `src/pkg/api/utils.go`: a key-value pair identifying a
dictionary item inside a sequence. -/
structure keyValuePair where
  key : String
  value : String
deriving DecidableEq, Repr

/-- The `identifyingKeys` list of `mergeSequenceDictionaries`:
common keys used to identify matching dictionary items in lists. -/
def identifyingKeys : List String := ["name", "id"]

/-- The pair scan of `findIdentifyingKeyValue`: walk the mapping's key/value
pairs in order; skip a pair unless both key and value are scalars; return the
first pair whose key string is one of `keys` (the inner
`for _, identifyingKey := range identifyingKeys` loop is an elementhood
test on `keys`). -/
def findIdInContent : List Node → List String → Option keyValuePair
  | k :: v :: rest, keys =>
    if k.kind ≠ .scalar ∨ v.kind ≠ .scalar then findIdInContent rest keys
    else if k.value ∈ keys then some ⟨k.value, v.value⟩
    else findIdInContent rest keys
  | _, _ => none

/-- Embeds `findIdentifyingKeyValue`: finds the first identifying key-value pair in a
mapping node (`nil` for non-mappings). -/
def findIdentifyingKeyValue (mappingNode : Node) (keys : List String) :
    Option keyValuePair :=
  if mappingNode.kind ≠ .mapping then none
  else findIdInContent mappingNode.content keys

/-- The pair scan of `shouldDropItem`: look for a scalar `_drop` key; when its
value node is a scalar, return whether the value is the string `"true"`
(Go's `v.Value == "true" || v.Tag == "!!bool" && v.Value == "true"`, with
`&&` binding tighter than `||`); when the value node is not a scalar the loop
just continues. -/
def dropInContent : List Node → Bool
  | k :: v :: rest =>
    if k.kind = .scalar ∧ k.value = "_drop" then
      if v.kind = .scalar then
        v.value == "true" || (v.tag == "!!bool" && v.value == "true")
      else dropInContent rest
    else dropInContent rest
  | _ => false

/-- Embeds `shouldDropItem`: whether a dictionary item carries a `_drop` marker that
asks for its matched base item to be removed. -/
def shouldDropItem (item : Node) : Bool :=
  if item.kind ≠ .mapping then false
  else dropInContent item.content

/-- The match test of `mergeSequenceDictionaries`' inner loop: a base element
matches the override identifier when it is a mapping whose own identifying
key/value pair exists and agrees on both components. -/
def matchesIdentifier (item : Node) (oid : keyValuePair) : Bool :=
  (item.kind == Kind.mapping) &&
    match findIdentifyingKeyValue item identifyingKeys with
    | some oid2 => oid2.key == oid.key && oid2.value == oid.value
    | none => false

/-- Index of the first base element matching the override identifier — the
inner `for _, originalItem := range node.Content` loop of
`mergeSequenceDictionaries`, which `break`s at the first match. -/
def findMatchIndex : List Node → keyValuePair → Option Nat
  | [], _ => none
  | item :: rest, oid =>
    if matchesIdentifier item oid then some 0
    else (findMatchIndex rest oid).map (· + 1)

/-- Embeds `removeItemFromSequence`, which removes the matched element by pointer identity
(`item == itemToRemove`) and splices `Content[:i] ++ Content[i+1:]`.  In the
strict tree produced by the YAML parser no node occurs twice in a sequence,
so the pointer found is exactly the matched element's position: the embedding
removes the element at that index. -/
def removeItemFromSequence (content : List Node) (i : Nat) : List Node :=
  content.take i ++ content.drop (i + 1)

/-! ### Key locator (`findNodeByKey`, `src/pkg/api/utils.go`) -/

mutual

/-- Embeds `findNodeByKey`: looks for a given field in a generic node tree and
returns its first occurrence (depth-first, the mapping case interleaving the
direct-key test of each pair with the recursion into that pair's value). -/
def findNodeByKey (node : Node) (key : String) : Option Node :=
  match node with
  | .mk .document _ _ c => findInList c key
  | .mk .mapping _ _ c => findInPairs c key
  | .mk .sequence _ _ c => findInList c key
  | _ => none
termination_by 2 * sizeOf node + 1

/-- The document/sequence loop of `findNodeByKey`: first hit among the
children, in order. -/
def findInList (l : List Node) (key : String) : Option Node :=
  match l with
  | [] => none
  | n :: rest =>
    match findNodeByKey n key with
    | some found => some found
    | none => findInList rest key
termination_by 2 * sizeOf l

/-- The mapping loop of `findNodeByKey`: for each key/value pair in order,
return the value on a direct scalar-key match, otherwise recurse into the
value before moving to the next pair.  (The Go loop reads `Content[i+1]`
unguarded, so an ill-formed odd-length mapping content would panic; the
embedding covers the even-length mapping invariant.) -/
def findInPairs (l : List Node) (key : String) : Option Node :=
  match l with
  | k :: v :: rest =>
    if k.kind = .scalar ∧ k.value = key then some v
    else
      match findNodeByKey v key with
      | some found => some found
      | none => findInPairs rest key
  | _ => none
termination_by 2 * sizeOf l

end

/-! ### Merge engine (`mergeYAMLNodes` and friends, `src/pkg/api/utils.go`)

Each Go function mutates its first argument in place; its embedding returns
the new value of that argument. -/

theorem Node.sizeOf_content_lt (n : Node) : sizeOf n.content < sizeOf n := by
  cases n with
  | mk k t v c =>
    simp only [Node.content, Node.mk.sizeOf_spec]
    omega

mutual

/-- Embeds `mergeYAMLNodes`: merges the override node into the root node, dispatching
on the pair of kinds (document/document, mapping/mapping, sequence/sequence,
otherwise scalar override wins by value and tag). -/
def mergeYAMLNodes (root override : Node) : Node :=
  if root.kind = .document ∧ override.kind = .document then
    match hr : root.content, ho : override.content with
    | r0 :: rrest, o0 :: _ => root.setContent (mergeYAMLNodes r0 o0 :: rrest)
    | _, _ => root
  else if root.kind = .mapping ∧ override.kind = .mapping then
    mergeMappingNodes root override
  else if root.kind = .sequence ∧ override.kind = .sequence then
    overrideSequenceNodes root override
  else if override.kind = .scalar then
    root.setValueTag override.value override.tag
  else root
termination_by (8 * sizeOf override + 4, 0)
decreasing_by
  all_goals first
    | decreasing_tactic
    | (have h1 := Node.sizeOf_content_lt override
       rw [ho] at h1
       simp only [List.cons.sizeOf_spec] at h1
       simp_wf
       omega)

/-- Embeds `mergeMappingNodes`: merges two mapping (object) nodes, iterating over the
override's key/value pairs. -/
def mergeMappingNodes (node override : Node) : Node :=
  mergeMappingPairs node override.content
termination_by (8 * sizeOf override + 3, 0)
decreasing_by
  have h1 := Node.sizeOf_content_lt override
  simp_wf
  omega

/-- The outer loop of `mergeMappingNodes` over the override's flat content,
two entries at a time (a dangling trailing key is ignored, as the
`i+1 >= len` guard does). -/
def mergeMappingPairs (node : Node) (oc : List Node) : Node :=
  match oc with
  | ok :: ov :: rest =>
    mergeMappingPairs (node.setContent (mergeIntoContent node.content ok ov)) rest
  | _ => node
termination_by (8 * sizeOf oc + 1, 0)

/-- The inner loop of `mergeMappingNodes` for one override pair `(ok, ov)`:
find the first pair of the base content whose key string equals `ok`'s and
merge `ov` into its value; when no pair matches, append `ok, ov` at the end
(also after a dangling trailing key, as the guarded Go loop does). -/
def mergeIntoContent (c : List Node) (ok ov : Node) : List Node :=
  match c with
  | nk :: nv :: rest =>
    if nk.value = ok.value then nk :: mergeYAMLNodes nv ov :: rest
    else nk :: nv :: mergeIntoContent rest ok ov
  | rest => rest ++ [ok, ov]
termination_by (8 * sizeOf ov + 5, sizeOf c)

/-- Embeds `overrideSequenceNodes`: an empty override or an override sequence with no
mapping element replaces the base content wholesale; otherwise the
dictionaries are merged by identity key. -/
def overrideSequenceNodes (node override : Node) : Node :=
  if override.content = [] then node.setContent override.content
  else if ¬ (override.content.any fun item => item.kind == Kind.mapping) then
    node.setContent override.content
  else mergeSequenceDictionaries node override
termination_by (8 * sizeOf override + 3, 0)

/-- Embeds `mergeSequenceDictionaries`: merges dictionaries within sequence nodes by
identity key. -/
def mergeSequenceDictionaries (node override : Node) : Node :=
  node.setContent (seqDictsList node.content override.content)
termination_by (8 * sizeOf override + 2, 0)
decreasing_by
  have h1 := Node.sizeOf_content_lt override
  simp_wf
  omega

/-- The outer loop of `mergeSequenceDictionaries` over the override's
elements, threading the (mutated) base content through. -/
def seqDictsList (content : List Node) (items : List Node) : List Node :=
  match items with
  | [] => content
  | it :: rest => seqDictsList (seqMergeItem content it) rest
termination_by (8 * sizeOf items + 1, 0)

/-- One iteration of `mergeSequenceDictionaries`: skip non-mapping override
items; append an override item with no identifying key; otherwise drop,
merge into, or (no match) append, at the first matching base element. -/
def seqMergeItem (content : List Node) (overrideItem : Node) : List Node :=
  if overrideItem.kind ≠ .mapping then content
  else
    match findIdentifyingKeyValue overrideItem identifyingKeys with
    | none => content ++ [overrideItem]
    | some oid =>
      match findMatchIndex content oid with
      | none => content ++ [overrideItem]
      | some j =>
        if shouldDropItem overrideItem then removeItemFromSequence content j
        else
          match content.get? j with
          | some orig => content.set j (mergeMappingNodes orig overrideItem)
          | none => content
termination_by (8 * sizeOf overrideItem + 4, 0)

end

/-! ### Path handling

`strings.Split` with separator `"/"` and the slash-only `path` package
(`path.Join` = drop empty elements, join with `'/'`, then `path.Clean`),
modelled at the character-list level so that everything evaluates. -/

/-- Go's `strings.Split(s, "/")`: the substrings between the `'/'`
separators; always at least one piece. -/
def splitSlash : List Char → List (List Char)
  | [] => [[]]
  | c :: rest =>
    if c = '/' then [] :: splitSlash rest
    else
      match splitSlash rest with
      | g :: gs => (c :: g) :: gs
      | [] => [[c]]

/-- Go slice indexing with an `int` index: defined exactly on `0 ≤ i < len`,
out-of-range access panics (modelled as `none`). -/
def goIndex (l : List α) (i : Int) : Option α :=
  if i < 0 then none else l.get? i.toNat

/-- Join path elements with `'/'`, skipping empty ones — the buffer `path.Join`
builds before cleaning. -/
def joinNonEmpty : List (List Char) → List Char
  | [] => []
  | p :: rest =>
    if p = [] then joinNonEmpty rest
    else
      match joinNonEmpty rest with
      | [] => p
      | q => p ++ '/' :: q

/-- The element processing of Go `path.Clean`: skip empty and `"."` elements;
on `".."` pop the last kept element, unless there is none (drop it when the
path is rooted, keep the `".."` otherwise) or the last kept element is itself
a `".."`.  `acc` holds the kept elements in reverse. -/
def cleanParts (rooted : Bool) (acc : List (List Char)) :
    List (List Char) → List (List Char)
  | [] => acc.reverse
  | p :: rest =>
    if p = [] ∨ p = ['.'] then cleanParts rooted acc rest
    else if p = ['.', '.'] then
      match acc with
      | [] => if rooted then cleanParts rooted [] rest
              else cleanParts rooted [['.', '.']] rest
      | top :: acc2 =>
        if top = ['.', '.'] then cleanParts rooted (p :: acc) rest
        else cleanParts rooted acc2 rest
    else cleanParts rooted (p :: acc) rest

/-- Re-join cleaned elements with `'/'`. -/
def intercalateSlash : List (List Char) → List Char
  | [] => []
  | [p] => p
  | p :: rest => p ++ '/' :: intercalateSlash rest

/-- Go `path.Clean`, as its standard lexical specification: empty path cleans
to `"."`; otherwise resolve `"."` and `".."` elements and collapse multiple
slashes, keeping a leading `'/'` for rooted paths. -/
def cleanPath (p : List Char) : List Char :=
  if p = [] then ['.']
  else
    let rooted := p.head? = some '/'
    let parts := cleanParts rooted [] (splitSlash p)
    let joined := intercalateSlash parts
    if rooted then '/' :: joined
    else if joined = [] then ['.'] else joined

/-- Go `path.Join(a, b)`: empty elements are dropped, the rest joined with
`'/'` and cleaned; when everything is empty the result is `""` (not `"."`). -/
def pathJoin2 (a b : String) : String :=
  match joinNonEmpty [a.toList, b.toList] with
  | [] => ""
  | buf => ⟨cleanPath buf⟩

/-! ### Example path patcher (`patchExamples`, `src/pkg/api/api.go`) -/

/-- The first name scan of `patchExamples`: the `Value` of the value node of
the first pair whose key is the scalar `name` (the `var name string` zero
value `""` when no such pair exists).  The Go loop reads the value node
unguarded, so an odd-length mapping content would panic; the embedding covers
the even-length mapping invariant. -/
def findName : List Node → String
  | k :: v :: rest =>
    if k.kind = .scalar ∧ k.value = "name" then v.value else findName rest
  | _ => ""

/-- The second scan of `patchExamples`: overwrite the `Value` of the value
node of the first pair whose key is the scalar `config_path` (keeping that
node's kind, tag and children); `none` when no such pair exists (the Go
`found` flag stays false). -/
def setConfigPath : List Node → String → Option (List Node)
  | k :: v :: rest, s =>
    if k.kind = .scalar ∧ k.value = "config_path" then
      some (k :: v.setValueTag s v.tag :: rest)
    else
      match setConfigPath rest s with
      | some rest2 => some (k :: v :: rest2)
      | none => none
  | _, _ => none

/-- The loop body of `patchExamples` for one element of the `examples`
sequence: non-mapping elements are left alone; for a mapping, derive
`path.Join(pathPrefix, name + ".tmpl")` from its `name` field and either
overwrite the existing `config_path` value or append a new scalar
`config_path` pair. -/
def patchOneExample (pathPrefix : String) (ex : Node) : Node :=
  if ex.kind = .mapping then
    let name := findName ex.content
    let valueToSet := pathJoin2 pathPrefix (name ++ ".tmpl")
    match setConfigPath ex.content valueToSet with
    | some c => ex.setContent c
    | none =>
      ex.setContent (ex.content ++
        [Node.mk .scalar "" "config_path" [], Node.mk .scalar "" valueToSet []])
  else ex

/-- Embeds `patchExamples` applied to the located `examples` node: a no-op unless the
node is a sequence, otherwise each element is patched in place with the
prefix `path.Join(templateDir, "examples")`.  (The locating itself is
`findNodeByKey root "examples"`; the Go code then mutates the found node
through the returned pointer.) -/
def patchExamplesNode (node : Node) (templateDir : String) : Node :=
  if node.kind = .sequence then
    node.setContent
      (node.content.map (patchOneExample (pathJoin2 templateDir "examples")))
  else node

/-! ### Override loader (`overrideYAML`, `src/pkg/api/utils.go`) -/

/-- The zero `yaml.Node{}` value (`Kind == 0`): what `overrideNode` still
holds when `yaml.Unmarshal` fails on a malformed override file. -/
def zeroYamlNode : Node := Node.mk .zero "" "" []

/-- Models `overrideYAML` on the path where the override file was read but
`yaml.Unmarshal` rejects it: the error is only logged, and execution falls
through to `mergeYAMLNodes(rootNode, &overrideNode)` with `overrideNode`
still the zero node.  `overrideYAML` has no error return at all. -/
def overrideYAMLParseFailure (rootNode : Node) : Node :=
  mergeYAMLNodes rootNode zeroYamlNode

/-- The path dissection at the top of `overrideYAML`:
`pieces := strings.Split(yamlFile, "/")` followed by the Go index access
`pieces[len(pieces)-2]` (the product name), which panics when the index is
out of range. -/
def overrideProductName (yamlFile : List Char) : Option (List Char) :=
  let pieces := splitSlash yamlFile
  goIndex pieces ((pieces.length : Int) - 2)

/-! ## Supporting lemmas -/

/-- Induction principle following the two-entries-at-a-time pair scans. -/
theorem twoStepInduction {P : List Node → Prop} (h0 : P []) (h1 : ∀ x, P [x])
    (h2 : ∀ k v rest, P rest → P (k :: v :: rest)) : ∀ c, P c
  | [] => h0
  | [x] => h1 x
  | k :: v :: rest => h2 k v rest (twoStepInduction h0 h1 h2 rest)

theorem lookupKey_eq_none_iff (k : String) :
    ∀ c : List Node, lookupKey c k = none ↔ k ∉ keysOf c := by
  refine twoStepInduction ?_ ?_ ?_
  · simp [lookupKey, keysOf, pairsOf]
  · intro x; simp [lookupKey, keysOf, pairsOf]
  · intro nk nv rest ih
    by_cases h : nk.value = k
    · simp [lookupKey, keysOf, pairsOf, h]
    · simp only [lookupKey, keysOf, pairsOf, List.map_cons, List.mem_cons, if_neg h]
      rw [ih]
      simp [keysOf]
      tauto

theorem lookupKey_append_pair (k : String) (a b : Node) :
    ∀ c : List Node, c.length % 2 = 0 →
      lookupKey (c ++ [a, b]) k =
        (lookupKey c k).or (if a.value = k then some b else none) := by
  refine twoStepInduction ?_ ?_ ?_
  · simp [lookupKey]
  · intro x h; simp at h
  · intro nk nv rest ih h
    simp only [List.length_cons] at h
    by_cases hk : nk.value = k
    · simp [lookupKey, hk]
    · simp only [List.cons_append, lookupKey, if_neg hk]
      exact ih (by omega)

theorem mergeIntoContent_length_even (ok ov : Node) :
    ∀ c, c.length % 2 = 0 → (mergeIntoContent c ok ov).length % 2 = 0 := by
  refine twoStepInduction ?_ ?_ ?_
  · intro _; simp [mergeIntoContent]
  · intro x h; simp at h
  · intro nk nv rest ih h
    simp only [List.length_cons] at h
    by_cases hk : nk.value = ok.value
    · simp only [mergeIntoContent, if_pos hk, List.length_cons]
      omega
    · simp only [mergeIntoContent, if_neg hk, List.length_cons]
      have := ih (by omega)
      omega

/-- Effect of one `mergeMappingNodes` iteration on lookups: the pair whose key
is `ok`'s gets its value merged with `ov` (or the pair appended when absent);
every other key's binding is untouched. -/
theorem lookupKey_mergeIntoContent (ok ov : Node) (k : String) :
    ∀ c, c.length % 2 = 0 →
      lookupKey (mergeIntoContent c ok ov) k =
        if k = ok.value then
          some ((lookupKey c ok.value).elim ov fun nv => mergeYAMLNodes nv ov)
        else lookupKey c k := by
  refine twoStepInduction ?_ ?_ ?_
  · intro _
    by_cases hk : k = ok.value
    · simp [mergeIntoContent, lookupKey, hk]
    · simp [mergeIntoContent, lookupKey, hk, Ne.symm hk]
  · intro x h; simp at h
  · intro nk nv rest ih h
    simp only [List.length_cons] at h
    by_cases hko : nk.value = ok.value
    · simp only [mergeIntoContent, if_pos hko]
      by_cases hk : k = ok.value
      · simp [lookupKey, hko, hk]
      · have hnk : ¬ nk.value = k := fun hh => hk (hh.symm.trans hko)
        simp [lookupKey, if_neg hnk, hk]
    · simp only [mergeIntoContent, if_neg hko]
      by_cases hnk : nk.value = k
      · have hk : ¬ k = ok.value := fun hh => hko (hnk.symm ▸ hh)
        simp [lookupKey, hnk, hk]
      · simp only [lookupKey, if_neg hnk]
        rw [ih (by omega)]
        by_cases hk : k = ok.value
        · rw [if_pos hk, if_pos hk, if_neg hko]
        · rw [if_neg hk, if_neg hk]

theorem keysOf_cons_pair (k v : Node) (rest : List Node) :
    keysOf (k :: v :: rest) = k.value :: keysOf rest := by
  simp [keysOf, pairsOf]

/-- Effect of one `mergeMappingNodes` iteration on the key list: unchanged when
the key already exists, otherwise the new key lands at the end. -/
theorem keysOf_mergeIntoContent (ok ov : Node) :
    ∀ c, c.length % 2 = 0 →
      keysOf (mergeIntoContent c ok ov) =
        if (lookupKey c ok.value).isSome then keysOf c
        else keysOf c ++ [ok.value] := by
  refine twoStepInduction ?_ ?_ ?_
  · intro _; simp [mergeIntoContent, lookupKey, keysOf, pairsOf]
  · intro x h; simp at h
  · intro nk nv rest ih h
    simp only [List.length_cons] at h
    by_cases hko : nk.value = ok.value
    · simp [mergeIntoContent, if_pos hko, lookupKey, hko, keysOf_cons_pair]
    · simp only [mergeIntoContent, if_neg hko, lookupKey, keysOf_cons_pair]
      rw [ih (by omega)]
      by_cases hs : (lookupKey rest ok.value).isSome
      · simp [hs]
      · simp [hs]

/-- The full effect of `mergeMappingNodes`' outer loop on a well-formed base
mapping content, for override pair lists with pairwise distinct keys: parity
is kept, a key bound in the override ends up bound to the recursive merge of
the two values (or the override value alone when new), any other key keeps
its base binding, and the keys of the result are the base keys followed by
the new override keys in override order. -/
theorem mergeMappingPairs_spec :
    ∀ oc : List Node, ∀ node : Node, node.content.length % 2 = 0 →
      (keysOf oc).Nodup →
      ((mergeMappingPairs node oc).content.length % 2 = 0) ∧
      (∀ k, lookupKey (mergeMappingPairs node oc).content k =
        (lookupKey oc k).elim (lookupKey node.content k) fun ov =>
          some ((lookupKey node.content k).elim ov fun nv => mergeYAMLNodes nv ov)) ∧
      (keysOf (mergeMappingPairs node oc).content =
        keysOf node.content ++
          (keysOf oc).filter fun k => (lookupKey node.content k).isNone) := by
  refine twoStepInduction ?_ ?_ ?_
  · intro node h _
    refine ⟨by simpa [mergeMappingPairs] using h, ?_, ?_⟩
    · intro k; simp [mergeMappingPairs, lookupKey]
    · simp [mergeMappingPairs, keysOf, pairsOf]
  · intro x node h _
    refine ⟨by simpa [mergeMappingPairs] using h, ?_, ?_⟩
    · intro k; simp [mergeMappingPairs, lookupKey]
    · simp [mergeMappingPairs, keysOf, pairsOf]
  · intro ok ov rest ih node h hnodup
    rw [keysOf_cons_pair] at hnodup
    have hmem : ok.value ∉ keysOf rest := (List.nodup_cons.mp hnodup).1
    have hnd : (keysOf rest).Nodup := (List.nodup_cons.mp hnodup).2
    have hstep : mergeMappingPairs node (ok :: ov :: rest) =
        mergeMappingPairs (node.setContent (mergeIntoContent node.content ok ov))
          rest := by
      simp [mergeMappingPairs]
    have hceven : (mergeIntoContent node.content ok ov).length % 2 = 0 :=
      mergeIntoContent_length_even ok ov node.content h
    obtain ⟨ih1, ih2, ih3⟩ :=
      ih (node.setContent (mergeIntoContent node.content ok ov))
        (by simpa using hceven) hnd
    rw [hstep]
    refine ⟨ih1, ?_, ?_⟩
    · intro k
      rw [ih2 k]
      simp only [Node.content_setContent]
      rw [lookupKey_mergeIntoContent ok ov k node.content h]
      by_cases hk : k = ok.value
      · have hr : lookupKey rest k = none :=
          (lookupKey_eq_none_iff k rest).mpr (hk ▸ hmem)
        rw [hr]
        simp [lookupKey, hk, if_pos hk]
      · have hoc : lookupKey (ok :: ov :: rest) k = lookupKey rest k := by
          simp [lookupKey, Ne.symm hk]
        rw [hoc, if_neg hk]
    · rw [ih3]
      simp only [Node.content_setContent]
      rw [keysOf_mergeIntoContent ok ov node.content h]
      have hfilter :
          ((keysOf rest).filter fun k =>
              (lookupKey (mergeIntoContent node.content ok ov) k).isNone) =
            (keysOf rest).filter fun k => (lookupKey node.content k).isNone := by
        apply List.filter_congr
        intro k hkmem
        have hk : ¬ k = ok.value := fun hh => hmem (hh ▸ hkmem)
        rw [lookupKey_mergeIntoContent ok ov k node.content h, if_neg hk]
      rw [hfilter, keysOf_cons_pair]
      by_cases hs : (lookupKey node.content ok.value).isSome
      · rw [if_pos hs]
        have : ((lookupKey node.content ok.value).isNone : Bool) = false := by
          simp [Option.isNone_iff_eq_none]
          exact Option.isSome_iff_exists.mp hs |>.elim fun a ha => by simp [ha]
        simp [List.filter_cons, this]
      · rw [if_neg hs]
        have : ((lookupKey node.content ok.value).isNone : Bool) = true := by
          simp [Option.isNone_iff_eq_none, Option.not_isSome_iff_eq_none.mp hs]
        simp [List.filter_cons, this]

/-! ## Claims -/

/-- Claim C7: when the override file exists but fails to parse as YAML,
`overrideYAML` leaves the base tree structurally unchanged (the merge with
the still-zero override node is a no-op for every base tree), and the
function — which has no error return — only logs the failure. -/
theorem overrideYAML_parse_failure_leaves_base_unchanged (rootNode : Node) :
    overrideYAMLParseFailure rootNode = rootNode := by
  simp [overrideYAMLParseFailure, zeroYamlNode, mergeYAMLNodes]

/-- Claim C2, counterexample: merging a scalar override onto a mapping base
leaves the base's kind and children intact (only value and tag are copied),
so the base is *not* equal in shape to the override scalar and keeps its
prior mapping children. -/
theorem mergeYAMLNodes_scalar_onto_mapping_keeps_children :
    (mergeYAMLNodes (Node.mk .mapping "" ""
        [Node.mk .scalar "" "k" [], Node.mk .scalar "" "v" []])
        (Node.mk .scalar "!!str" "x" [])).kind = Kind.mapping ∧
    (mergeYAMLNodes (Node.mk .mapping "" ""
        [Node.mk .scalar "" "k" [], Node.mk .scalar "" "v" []])
        (Node.mk .scalar "!!str" "x" [])).content =
      [Node.mk .scalar "" "k" [], Node.mk .scalar "" "v" []] := by
  constructor <;> simp [mergeYAMLNodes, Node.setValueTag]

/-- Claim C2, amended: for every merge call where the override node is a
Scalar, the base node's value and type tag become the override's, while its
kind and children are unchanged — full shape replacement happens only when
the base itself was a scalar (then there are no children to keep). -/
theorem mergeYAMLNodes_scalar_override_sets_value_tag (root o : Node)
    (h : o.kind = .scalar) :
    mergeYAMLNodes root o = root.setValueTag o.value o.tag := by
  rw [mergeYAMLNodes]
  simp [h]

/-- Witness for the amended C2 theorem at a concrete mapping base and scalar
override. -/
theorem mergeYAMLNodes_scalar_override_sets_value_tag_witness :
    mergeYAMLNodes (Node.mk .mapping "" "" [Node.mk .scalar "" "k" []])
        (Node.mk .scalar "!!int" "7" []) =
      (Node.mk .mapping "" "" [Node.mk .scalar "" "k" []]).setValueTag "7" "!!int" :=
  mergeYAMLNodes_scalar_override_sets_value_tag _ _ rfl

/-- Claim C1, counterexample: a mapping that lists a scalar `id` field before
a scalar `name` field is identified by the `id` pair, not by the `name` pair
— `findIdentifyingKeyValue` scans the mapping's fields in document order, not
in the claimed `name`-then-`id` priority order. -/
theorem findIdentifyingKeyValue_prefers_mapping_order :
    findIdentifyingKeyValue (Node.mk .mapping "" ""
        [Node.mk .scalar "" "id" [], Node.mk .scalar "" "1" [],
         Node.mk .scalar "" "name" [], Node.mk .scalar "" "a" []])
        identifyingKeys = some ⟨"id", "1"⟩ ∧
    findIdentifyingKeyValue (Node.mk .mapping "" ""
        [Node.mk .scalar "" "id" [], Node.mk .scalar "" "1" [],
         Node.mk .scalar "" "name" [], Node.mk .scalar "" "a" []])
        identifyingKeys ≠ some ⟨"name", "a"⟩ := by
  constructor <;> decide

/-- Claim C1, amended: the identity pair of a mapping element is the first
field in mapping order whose key and value are both scalars and whose key is
`name` or `id`; in particular a qualifying `id` field that precedes every
`name` field wins, `name`-priority notwithstanding. -/
theorem findIdentifyingKeyValue_first_qualifying_pair :
    ∀ pre : List Node, pre.length % 2 = 0 →
      (∀ p ∈ pairsOf pre,
        ¬(p.1.kind = .scalar ∧ p.2.kind = .scalar ∧ p.1.value ∈ identifyingKeys)) →
      ∀ (t val : String) (k v : Node) (rest : List Node),
        k.kind = .scalar → v.kind = .scalar → k.value ∈ identifyingKeys →
        findIdentifyingKeyValue (Node.mk .mapping t val (pre ++ k :: v :: rest))
          identifyingKeys = some ⟨k.value, v.value⟩ := by
  refine twoStepInduction ?_ ?_ ?_
  · intro _ _ t val k v rest hk hv hmem
    simp [findIdentifyingKeyValue, findIdInContent, hk, hv, hmem]
  · intro x h; simp at h
  · intro pk pv rest ih h hclean t val k v rest2 hk hv hmem
    simp only [List.length_cons] at h
    have hpair := hclean (pk, pv) (by simp [pairsOf])
    have hrest : ∀ p ∈ pairsOf rest,
        ¬(p.1.kind = .scalar ∧ p.2.kind = .scalar ∧ p.1.value ∈ identifyingKeys) :=
      fun p hp => hclean p (by simp [pairsOf, hp])
    have ihres := ih (by omega) hrest t val k v rest2 hk hv hmem
    simp only [findIdentifyingKeyValue] at ihres ⊢
    simp only [List.cons_append, findIdInContent] at ihres ⊢
    by_cases hks : pk.kind = Kind.scalar ∧ pv.kind = Kind.scalar
    · have hnmem : pk.value ∉ identifyingKeys := fun hm => hpair ⟨hks.1, hks.2, hm⟩
      simp only [hks.1, hks.2] at hpair ⊢
      simp only [ne_eq, not_true_eq_false, false_or] at ihres ⊢
      simpa [hnmem] using ihres
    · rw [Classical.not_and_iff_or_not_not] at hks
      rcases hks with hks | hks <;> simpa [hks] using ihres

/-- Witness for the amended C1 theorem: a mapping with a non-identifying
first pair, then `id`, then `name` is identified by the `id` pair. -/
theorem findIdentifyingKeyValue_first_qualifying_pair_witness :
    findIdentifyingKeyValue (Node.mk .mapping "" ""
        [Node.mk .scalar "" "other" [], Node.mk .scalar "" "x" [],
         Node.mk .scalar "" "id" [], Node.mk .scalar "" "1" [],
         Node.mk .scalar "" "name" [], Node.mk .scalar "" "a" []])
        identifyingKeys = some ⟨"id", "1"⟩ :=
  findIdentifyingKeyValue_first_qualifying_pair
    [Node.mk .scalar "" "other" [], Node.mk .scalar "" "x" []]
    (by decide) (by decide) "" ""
    (Node.mk .scalar "" "id" []) (Node.mk .scalar "" "1" [])
    [Node.mk .scalar "" "name" [], Node.mk .scalar "" "a" []]
    (by decide) (by decide) (by decide)

/-- Claim C6, counterexample: in a keyed sequence merge, a non-mapping
override element (here the scalar `"x"` in a mixed override list) is skipped
outright — it is *not* appended to the base sequence. -/
theorem seqMerge_skips_non_mapping_override_items :
    (mergeYAMLNodes (Node.mk .sequence "" "" [])
        (Node.mk .sequence "" ""
          [Node.mk .mapping "" "" [Node.mk .scalar "" "name" [], Node.mk .scalar "" "a" []],
           Node.mk .scalar "" "x" []])).content =
      [Node.mk .mapping "" ""
        [Node.mk .scalar "" "name" [], Node.mk .scalar "" "a" []]] ∧
    Node.mk .scalar "" "x" [] ∉
      (mergeYAMLNodes (Node.mk .sequence "" "" [])
        (Node.mk .sequence "" ""
          [Node.mk .mapping "" "" [Node.mk .scalar "" "name" [], Node.mk .scalar "" "a" []],
           Node.mk .scalar "" "x" []])).content := by
  have h : (mergeYAMLNodes (Node.mk .sequence "" "" [])
      (Node.mk .sequence "" ""
        [Node.mk .mapping "" "" [Node.mk .scalar "" "name" [], Node.mk .scalar "" "a" []],
         Node.mk .scalar "" "x" []])).content =
      [Node.mk .mapping "" ""
        [Node.mk .scalar "" "name" [], Node.mk .scalar "" "a" []]] := by
    simp [mergeYAMLNodes, overrideSequenceNodes, mergeSequenceDictionaries,
      seqDictsList, seqMergeItem, findIdentifyingKeyValue, findIdInContent,
      identifyingKeys, findMatchIndex]
  exact ⟨h, by rw [h]; decide⟩

/-- Claim C6, amended: during keyed sequence merge, an override *mapping*
element with no identifying field is unconditionally appended to the base
sequence (no matching attempted), while a non-mapping override element (e.g.
a scalar in a mixed list) is skipped entirely — neither matched nor
appended. -/
theorem seqMergeItem_no_identifier_append_non_mapping_skip :
    (∀ (content : List Node) (o : Node), o.kind = .mapping →
      findIdentifyingKeyValue o identifyingKeys = none →
      seqMergeItem content o = content ++ [o]) ∧
    (∀ (content : List Node) (o : Node), o.kind ≠ .mapping →
      seqMergeItem content o = content) := by
  constructor
  · intro content o h1 h2
    rw [seqMergeItem]
    simp [h1, h2]
  · intro content o h1
    rw [seqMergeItem]
    simp [h1]

/-- Witness for the amended C6 theorem: a mapping with no `name`/`id` field
is appended; a scalar override element leaves the base untouched. -/
theorem seqMergeItem_no_identifier_append_non_mapping_skip_witness :
    seqMergeItem [Node.mk .scalar "" "base" []]
        (Node.mk .mapping "" "" [Node.mk .scalar "" "foo" [], Node.mk .scalar "" "y" []]) =
      [Node.mk .scalar "" "base" [],
       Node.mk .mapping "" "" [Node.mk .scalar "" "foo" [], Node.mk .scalar "" "y" []]] ∧
    seqMergeItem [Node.mk .scalar "" "base" []] (Node.mk .scalar "" "x" []) =
      [Node.mk .scalar "" "base" []] :=
  ⟨seqMergeItem_no_identifier_append_non_mapping_skip.1 _ _ rfl (by decide),
   seqMergeItem_no_identifier_append_non_mapping_skip.2 _ _ (by decide)⟩

/-- Claim C4: in a keyed sequence merge, when an override mapping element
matches a base element by identity key and carries a `_drop` marker whose
scalar value is the string `"true"` (plain or `!!bool`-tagged), the matched
base element is removed from the base sequence rather than merged. -/
theorem seqMergeItem_drop_removes_matched_element (content : List Node)
    (o : Node) (oid : keyValuePair) (j : Nat)
    (h1 : o.kind = .mapping)
    (h2 : findIdentifyingKeyValue o identifyingKeys = some oid)
    (h3 : shouldDropItem o = true)
    (h4 : findMatchIndex content oid = some j) :
    seqMergeItem content o = removeItemFromSequence content j := by
  rw [seqMergeItem]
  simp [h1, h2, h3, h4]

/-- Witness for C4, including the spec's example: base
`[{id: "1", v: "keep"}]` with override `[{id: "1", _drop: "true"}]` merges to
the empty sequence, for the plain-string marker and for the `!!bool` one. -/
theorem seqMergeItem_drop_removes_matched_element_witness :
    seqMergeItem
        [Node.mk .mapping "" ""
          [Node.mk .scalar "" "id" [], Node.mk .scalar "" "1" [],
           Node.mk .scalar "" "v" [], Node.mk .scalar "" "keep" []]]
        (Node.mk .mapping "" ""
          [Node.mk .scalar "" "id" [], Node.mk .scalar "" "1" [],
           Node.mk .scalar "" "_drop" [], Node.mk .scalar "" "true" []]) = [] ∧
    (mergeYAMLNodes
        (Node.mk .sequence "" ""
          [Node.mk .mapping "" ""
            [Node.mk .scalar "" "id" [], Node.mk .scalar "" "1" [],
             Node.mk .scalar "" "v" [], Node.mk .scalar "" "keep" []]])
        (Node.mk .sequence "" ""
          [Node.mk .mapping "" ""
            [Node.mk .scalar "" "id" [], Node.mk .scalar "" "1" [],
             Node.mk .scalar "" "_drop" [], Node.mk .scalar "!!bool" "true" []]])) =
      Node.mk .sequence "" "" [] := by
  constructor
  · exact (seqMergeItem_drop_removes_matched_element _ _ ⟨"id", "1"⟩ 0
      (by decide) (by decide) (by decide) (by decide)).trans (by decide)
  · simp [mergeYAMLNodes, overrideSequenceNodes, mergeSequenceDictionaries,
      seqDictsList, seqMergeItem, findIdentifyingKeyValue, findIdInContent,
      identifyingKeys, findMatchIndex, matchesIdentifier, shouldDropItem,
      dropInContent, removeItemFromSequence, Node.setContent]

/-- The inner matching loop stops at the first matching base element: when
index `j` matches and no smaller index does, `findMatchIndex` returns `j`. -/
theorem findMatchIndex_eq_first_match (oid : keyValuePair) :
    ∀ (content : List Node) (j : Nat) (hj : j < content.length),
      matchesIdentifier (content.get ⟨j, hj⟩) oid = true →
      (∀ i (hi : i < j),
        matchesIdentifier (content.get ⟨i, Nat.lt_trans hi hj⟩) oid = false) →
      findMatchIndex content oid = some j := by
  intro content
  induction content with
  | nil => intro j hj; simp at hj
  | cons item rest ih =>
    intro j hj hmatch hfirst
    match j with
    | 0 =>
      simp only [List.get] at hmatch
      simp [findMatchIndex, hmatch]
    | j' + 1 =>
      have hitem : matchesIdentifier item oid = false := hfirst 0 (Nat.succ_pos j')
      simp only [findMatchIndex, hitem, Bool.false_eq_true, if_false]
      have hj' : j' < rest.length := by simpa using hj
      rw [ih j' hj' (by simpa using hmatch)
        (fun i hi => by simpa using hfirst (i + 1) (by omega))]
      rfl

/-- Claim C10: during keyed sequence merge, the search over base elements
stops at the first base mapping (in base order) whose identity key and value
equal the override element's; only that element is merged or dropped, and
every other element — later duplicates included — is carried over
unchanged. -/
theorem seqMergeItem_affects_only_first_match (content : List Node)
    (o : Node) (oid : keyValuePair) (j : Nat)
    (h1 : o.kind = .mapping)
    (h2 : findIdentifyingKeyValue o identifyingKeys = some oid)
    (hj : j < content.length)
    (hmatch : matchesIdentifier (content.get ⟨j, hj⟩) oid = true)
    (hfirst : ∀ i (hi : i < j),
      matchesIdentifier (content.get ⟨i, Nat.lt_trans hi hj⟩) oid = false) :
    seqMergeItem content o =
      content.take j ++
        (if shouldDropItem o then []
         else [mergeMappingNodes (content.get ⟨j, hj⟩) o]) ++
        content.drop (j + 1) := by
  have hidx : findMatchIndex content oid = some j :=
    findMatchIndex_eq_first_match oid content j hj hmatch hfirst
  rw [seqMergeItem]
  simp only [h1, h2, hidx]
  by_cases hd : shouldDropItem o
  · simp [hd, removeItemFromSequence]
  · have hget : content.get? j = some (content.get ⟨j, hj⟩) := List.get?_eq_get hj
    simp only [ne_eq, not_true_eq_false, if_false, hd, Bool.false_eq_true, hget]
    rw [List.set_eq_take_cons_drop _ hj]
    simp [hd]

/-- Witness for C10: with two base elements sharing the identity `id = "1"`,
only the first is merged; the later duplicate is untouched. -/
theorem seqMergeItem_affects_only_first_match_witness :
    seqMergeItem
        [Node.mk .mapping "" ""
          [Node.mk .scalar "" "id" [], Node.mk .scalar "" "1" [],
           Node.mk .scalar "" "v" [], Node.mk .scalar "" "a" []],
         Node.mk .mapping "" ""
          [Node.mk .scalar "" "id" [], Node.mk .scalar "" "1" [],
           Node.mk .scalar "" "v" [], Node.mk .scalar "" "b" []]]
        (Node.mk .mapping "" ""
          [Node.mk .scalar "" "id" [], Node.mk .scalar "" "1" [],
           Node.mk .scalar "" "x" [], Node.mk .scalar "" "9" []]) =
      [mergeMappingNodes
        (Node.mk .mapping "" ""
          [Node.mk .scalar "" "id" [], Node.mk .scalar "" "1" [],
           Node.mk .scalar "" "v" [], Node.mk .scalar "" "a" []])
        (Node.mk .mapping "" ""
          [Node.mk .scalar "" "id" [], Node.mk .scalar "" "1" [],
           Node.mk .scalar "" "x" [], Node.mk .scalar "" "9" []]),
       Node.mk .mapping "" ""
        [Node.mk .scalar "" "id" [], Node.mk .scalar "" "1" [],
         Node.mk .scalar "" "v" [], Node.mk .scalar "" "b" []]] :=
  (seqMergeItem_affects_only_first_match _ _ ⟨"id", "1"⟩ 0
    (by decide) (by decide) (by decide) (by decide)
    (fun i hi => absurd hi (Nat.not_lt_zero i))).trans
    (by simp [shouldDropItem, dropInContent])

/-- Claim C5: a mapping merge is key-preserving and additive — a base key
absent from the override keeps its binding, every override key ends up bound
to the recursive merge of the two values (or the override value alone if it
was absent from base, with the new pair appended at the end of the base's
pair list), and no base key is ever removed.  Stated over well-formed
(even-length) base content and overrides with pairwise distinct keys, the
mapping invariant of the source format. -/
theorem mergeMappingNodes_key_preserving_additive (b o : Node)
    (hb : b.content.length % 2 = 0) (ho : (keysOf o.content).Nodup) :
    (∀ k, lookupKey o.content k = none →
      lookupKey (mergeMappingNodes b o).content k = lookupKey b.content k) ∧
    (∀ k ov, lookupKey o.content k = some ov →
      lookupKey (mergeMappingNodes b o).content k =
        some ((lookupKey b.content k).elim ov fun bv => mergeYAMLNodes bv ov)) ∧
    (∀ k, lookupKey b.content k ≠ none →
      lookupKey (mergeMappingNodes b o).content k ≠ none) ∧
    (keysOf (mergeMappingNodes b o).content =
      keysOf b.content ++
        (keysOf o.content).filter fun k => (lookupKey b.content k).isNone) := by
  have hm : mergeMappingNodes b o = mergeMappingPairs b o.content := by
    rw [mergeMappingNodes]
  obtain ⟨_, h2, h3⟩ := mergeMappingPairs_spec o.content b hb ho
  refine ⟨?_, ?_, ?_, hm ▸ h3⟩
  · intro k hk
    rw [hm, h2 k, hk]
    rfl
  · intro k ov hk
    rw [hm, h2 k, hk]
    rfl
  · intro k hk
    rw [hm, h2 k]
    cases hko : lookupKey o.content k with
    | none => simpa using hk
    | some ov => simp

/-- Witness for C5 at the spec's keyed-merge example element: base
`{name: "a", x: "1", keep: "old"}` with override `{x: "99", new: "3"}`. -/
theorem mergeMappingNodes_key_preserving_additive_witness :
    (lookupKey (mergeMappingNodes
        (Node.mk .mapping "" ""
          [Node.mk .scalar "" "name" [], Node.mk .scalar "" "a" [],
           Node.mk .scalar "" "x" [], Node.mk .scalar "" "1" [],
           Node.mk .scalar "" "keep" [], Node.mk .scalar "" "old" []])
        (Node.mk .mapping "" ""
          [Node.mk .scalar "" "x" [], Node.mk .scalar "" "99" [],
           Node.mk .scalar "" "new" [], Node.mk .scalar "" "3" []])).content "keep" =
      some (Node.mk .scalar "" "old" [])) ∧
    (keysOf (mergeMappingNodes
        (Node.mk .mapping "" ""
          [Node.mk .scalar "" "name" [], Node.mk .scalar "" "a" [],
           Node.mk .scalar "" "x" [], Node.mk .scalar "" "1" [],
           Node.mk .scalar "" "keep" [], Node.mk .scalar "" "old" []])
        (Node.mk .mapping "" ""
          [Node.mk .scalar "" "x" [], Node.mk .scalar "" "99" [],
           Node.mk .scalar "" "new" [], Node.mk .scalar "" "3" []])).content =
      ["name", "x", "keep", "new"]) := by
  obtain ⟨h1, _, _, h4⟩ := mergeMappingNodes_key_preserving_additive
    (Node.mk .mapping "" ""
      [Node.mk .scalar "" "name" [], Node.mk .scalar "" "a" [],
       Node.mk .scalar "" "x" [], Node.mk .scalar "" "1" [],
       Node.mk .scalar "" "keep" [], Node.mk .scalar "" "old" []])
    (Node.mk .mapping "" ""
      [Node.mk .scalar "" "x" [], Node.mk .scalar "" "99" [],
       Node.mk .scalar "" "new" [], Node.mk .scalar "" "3" []])
    (by decide) (by decide)
  refine ⟨?_, ?_⟩
  · rw [h1 "keep" (by decide)]; decide
  · rw [h4]; decide

/-- Claim C3, counterexample: searching `foo` in the mapping
`{a: {foo: "1"}, foo: "2"}` returns the occurrence nested inside the earlier
value `a`, not the mapping's own direct `foo` key — `findNodeByKey` recurses
into each pair's value before looking at the next pair's key, so a direct key
match does not take precedence over occurrences nested in earlier values. -/
theorem findNodeByKey_nested_beats_later_direct :
    findNodeByKey (Node.mk .mapping "" ""
        [Node.mk .scalar "" "a" [],
         Node.mk .mapping "" "" [Node.mk .scalar "" "foo" [], Node.mk .scalar "" "1" []],
         Node.mk .scalar "" "foo" [], Node.mk .scalar "" "2" []]) "foo" =
      some (Node.mk .scalar "" "1" []) ∧
    findNodeByKey (Node.mk .mapping "" ""
        [Node.mk .scalar "" "a" [],
         Node.mk .mapping "" "" [Node.mk .scalar "" "foo" [], Node.mk .scalar "" "1" []],
         Node.mk .scalar "" "foo" [], Node.mk .scalar "" "2" []]) "foo" ≠
      some (Node.mk .scalar "" "2" []) := by
  have h : findNodeByKey (Node.mk .mapping "" ""
      [Node.mk .scalar "" "a" [],
       Node.mk .mapping "" "" [Node.mk .scalar "" "foo" [], Node.mk .scalar "" "1" []],
       Node.mk .scalar "" "foo" [], Node.mk .scalar "" "2" []]) "foo" =
      some (Node.mk .scalar "" "1" []) := by
    simp [findNodeByKey, findInPairs, findInList]
  exact ⟨h, by rw [h]; decide⟩

theorem findInPairs_append_of_none (key : String) :
    ∀ pre, pre.length % 2 = 0 → findInPairs pre key = none →
      ∀ suffix, findInPairs (pre ++ suffix) key = findInPairs suffix key := by
  refine twoStepInduction ?_ ?_ ?_
  · intro _ _ suffix; rfl
  · intro x h; simp at h
  · intro nk nv rest ih h hnone suffix
    simp only [List.length_cons] at h
    rw [findInPairs] at hnone
    by_cases hif : nk.kind = .scalar ∧ nk.value = key
    · rw [if_pos hif] at hnone; cases hnone
    · rw [if_neg hif] at hnone
      cases hm : findNodeByKey nv key with
      | some f => rw [hm] at hnone; cases hnone
      | none =>
        rw [hm] at hnone
        rw [List.cons_append, List.cons_append, findInPairs, if_neg hif, hm]
        exact ih (by omega) hnone suffix

theorem findInPairs_append_of_some (key : String) (f : Node) :
    ∀ pre, pre.length % 2 = 0 → findInPairs pre key = some f →
      ∀ suffix, findInPairs (pre ++ suffix) key = some f := by
  refine twoStepInduction ?_ ?_ ?_
  · intro _ hsome suffix
    simp [findInPairs] at hsome
  · intro x h; simp at h
  · intro nk nv rest ih h hsome suffix
    simp only [List.length_cons] at h
    rw [findInPairs] at hsome
    rw [List.cons_append, List.cons_append, findInPairs]
    by_cases hif : nk.kind = .scalar ∧ nk.value = key
    · rw [if_pos hif] at hsome ⊢; exact hsome
    · rw [if_neg hif] at hsome ⊢
      cases hm : findNodeByKey nv key with
      | some g => rw [hm] at hsome; exact hsome
      | none => rw [hm] at hsome; exact ih (by omega) hsome suffix

/-- Claim C3, amended: at a mapping, `findNodeByKey` interleaves the direct
key test of each pair with the recursion into that pair's value — a direct
scalar-key match is returned if no earlier pair matched directly or contained
the key nested in its value, and any hit inside an earlier pair (direct or
nested) takes precedence over a later direct key match. -/
theorem findNodeByKey_mapping_interleaved_order :
    (∀ (t val key : String) (pre : List Node) (k v : Node) (rest : List Node),
      pre.length % 2 = 0 → findInPairs pre key = none →
      k.kind = .scalar → k.value = key →
      findNodeByKey (Node.mk .mapping t val (pre ++ k :: v :: rest)) key = some v) ∧
    (∀ (t val key : String) (pre suffix : List Node) (f : Node),
      pre.length % 2 = 0 → findInPairs pre key = some f →
      findNodeByKey (Node.mk .mapping t val (pre ++ suffix)) key = some f) := by
  constructor
  · intro t val key pre k v rest hlen hnone hk hkey
    rw [findNodeByKey, findInPairs_append_of_none key pre hlen hnone,
      findInPairs, if_pos ⟨hk, hkey⟩]
  · intro t val key pre suffix f hlen hsome
    rw [findNodeByKey, findInPairs_append_of_some key f pre hlen hsome suffix]

/-- Witness for the amended C3 theorem: a direct match after a clean prefix
is returned, and a nested hit in an earlier value shadows a later direct
key. -/
theorem findNodeByKey_mapping_interleaved_order_witness :
    findNodeByKey (Node.mk .mapping "" ""
        ([Node.mk .scalar "" "a" [], Node.mk .scalar "" "0" []] ++
          Node.mk .scalar "" "foo" [] :: Node.mk .scalar "" "2" [] ::
            [Node.mk .scalar "" "z" [], Node.mk .scalar "" "3" []])) "foo" =
      some (Node.mk .scalar "" "2" []) ∧
    findNodeByKey (Node.mk .mapping "" ""
        ([Node.mk .scalar "" "a" [],
          Node.mk .mapping "" "" [Node.mk .scalar "" "foo" [], Node.mk .scalar "" "1" []]] ++
          [Node.mk .scalar "" "foo" [], Node.mk .scalar "" "2" []])) "foo" =
      some (Node.mk .scalar "" "1" []) :=
  ⟨findNodeByKey_mapping_interleaved_order.1 "" "" "foo"
      [Node.mk .scalar "" "a" [], Node.mk .scalar "" "0" []]
      (Node.mk .scalar "" "foo" []) (Node.mk .scalar "" "2" [])
      [Node.mk .scalar "" "z" [], Node.mk .scalar "" "3" []]
      (by decide) (by simp [findInPairs, findNodeByKey]) (by decide) (by decide),
   findNodeByKey_mapping_interleaved_order.2 "" "" "foo"
      [Node.mk .scalar "" "a" [],
       Node.mk .mapping "" "" [Node.mk .scalar "" "foo" [], Node.mk .scalar "" "1" []]]
      [Node.mk .scalar "" "foo" [], Node.mk .scalar "" "2" []]
      (Node.mk .scalar "" "1" [])
      (by decide) (by simp [findInPairs, findNodeByKey, findInList])⟩

theorem setConfigPath_some_lookup (s : String) :
    ∀ c c2, setConfigPath c s = some c2 →
      (lookupScalarKey c2 "config_path").map Node.value = some s := by
  refine twoStepInduction ?_ ?_ ?_
  · intro c2 h; simp [setConfigPath] at h
  · intro x c2 h; simp [setConfigPath] at h
  · intro k v rest ih c2 h
    rw [setConfigPath] at h
    by_cases hif : k.kind = .scalar ∧ k.value = "config_path"
    · rw [if_pos hif] at h
      cases h
      simp [lookupScalarKey, hif]
    · rw [if_neg hif] at h
      cases hrest : setConfigPath rest s with
      | some rest2 =>
        rw [hrest] at h
        cases h
        rw [lookupScalarKey, if_neg hif]
        exact ih rest2 hrest
      | none => rw [hrest] at h; cases h

theorem setConfigPath_none_lookup (s : String) :
    ∀ c, setConfigPath c s = none → lookupScalarKey c "config_path" = none := by
  refine twoStepInduction ?_ ?_ ?_
  · intro _; simp [lookupScalarKey]
  · intro x _; simp [lookupScalarKey]
  · intro k v rest ih h
    rw [setConfigPath] at h
    by_cases hif : k.kind = .scalar ∧ k.value = "config_path"
    · rw [if_pos hif] at h; cases h
    · rw [if_neg hif] at h
      rw [lookupScalarKey, if_neg hif]
      cases hrest : setConfigPath rest s with
      | some rest2 => rw [hrest] at h; cases h
      | none => exact ih hrest

theorem lookupScalarKey_append_pair (key : String) (a b : Node) :
    ∀ c : List Node, c.length % 2 = 0 →
      lookupScalarKey (c ++ [a, b]) key =
        (lookupScalarKey c key).or
          (if a.kind = .scalar ∧ a.value = key then some b else none) := by
  refine twoStepInduction ?_ ?_ ?_
  · intro _; simp [lookupScalarKey]
  · intro x h; simp at h
  · intro nk nv rest ih h
    simp only [List.length_cons] at h
    by_cases hif : nk.kind = .scalar ∧ nk.value = key
    · simp [lookupScalarKey, hif]
    · simp only [List.cons_append, lookupScalarKey, if_neg hif]
      exact ih (by omega)

/-- One `patchExamples` loop iteration on a mapping element always leaves a
`config_path` field bound to `path.Join(pathPrefix, name + ".tmpl")`:
overwritten in place when present, appended otherwise. -/
theorem patchOneExample_config_path (pref : String) (e : Node)
    (he : e.kind = .mapping) (hev : e.content.length % 2 = 0) :
    (lookupScalarKey (patchOneExample pref e).content "config_path").map
        Node.value =
      some (pathJoin2 pref (findName e.content ++ ".tmpl")) := by
  rw [patchOneExample, if_pos he]
  cases hset : setConfigPath e.content (pathJoin2 pref (findName e.content ++ ".tmpl")) with
  | some c2 =>
    simp only [hset, Node.content_setContent]
    exact setConfigPath_some_lookup _ e.content c2 hset
  | none =>
    simp only [hset, Node.content_setContent]
    rw [lookupScalarKey_append_pair _ _ _ e.content hev,
      setConfigPath_none_lookup _ e.content hset]
    simp

/-- Claim C8, counterexample: a non-mapping element of the `examples`
sequence (here a plain scalar) is skipped by `patchExamples` — after
patching it is unchanged and carries no `config_path` field, so not *every*
element of the sequence ends up with one. -/
theorem patchExamples_scalar_element_lacks_config_path :
    patchExamplesNode (Node.mk .sequence "" "" [Node.mk .scalar "" "x" []]) "tpl" =
      Node.mk .sequence "" "" [Node.mk .scalar "" "x" []] ∧
    lookupScalarKey (Node.mk .scalar "" "x" [] : Node).content "config_path" =
      none := by
  constructor
  · rw [patchExamplesNode]
    simp [patchOneExample, Node.setContent]
  · decide

/-- Claim C8, amended: after `patchExamples` runs on a tree whose `examples`
key holds a sequence, every *mapping* element of that sequence has a
`config_path` field whose scalar value is exactly
`path.Join(path.Join(templateDirectory, "examples"), name + ".tmpl")` —
`name` being the element's `name` field value, empty when absent — with an
existing `config_path` overwritten in place and a missing one appended;
non-mapping elements are skipped. -/
theorem patchExamplesNode_total_on_mapping_elements (root ex : Node)
    (td : String) (e : Node)
    (h1 : findNodeByKey root "examples" = some ex)
    (h2 : ex.kind = .sequence)
    (h3 : e ∈ ex.content)
    (h4 : e.kind = .mapping)
    (h5 : e.content.length % 2 = 0) :
    patchOneExample (pathJoin2 td "examples") e ∈ (patchExamplesNode ex td).content ∧
    (lookupScalarKey (patchOneExample (pathJoin2 td "examples") e).content
        "config_path").map Node.value =
      some (pathJoin2 (pathJoin2 td "examples") (findName e.content ++ ".tmpl")) := by
  constructor
  · rw [patchExamplesNode, if_pos h2]
    simp only [Node.content_setContent]
    exact List.mem_map_of_mem _ h3
  · exact patchOneExample_config_path (pathJoin2 td "examples") e h4 h5

/-- Witness for the amended C8 theorem: a resource tree with one example
named `ex1` and no prior `config_path`, patched with template directory
`/tpl`, yields `config_path = "/tpl/examples/ex1.tmpl"` exactly. -/
theorem patchExamplesNode_total_on_mapping_elements_witness :
    (patchOneExample (pathJoin2 "/tpl" "examples")
        (Node.mk .mapping "" "" [Node.mk .scalar "" "name" [], Node.mk .scalar "" "ex1" []]) ∈
      (patchExamplesNode
        (Node.mk .sequence "" ""
          [Node.mk .mapping "" "" [Node.mk .scalar "" "name" [], Node.mk .scalar "" "ex1" []]])
        "/tpl").content ∧
    (lookupScalarKey (patchOneExample (pathJoin2 "/tpl" "examples")
        (Node.mk .mapping "" ""
          [Node.mk .scalar "" "name" [], Node.mk .scalar "" "ex1" []])).content
        "config_path").map Node.value =
      some (pathJoin2 (pathJoin2 "/tpl" "examples")
        (findName [Node.mk .scalar "" "name" [], Node.mk .scalar "" "ex1" []] ++ ".tmpl"))) ∧
    pathJoin2 (pathJoin2 "/tpl" "examples")
        (findName [Node.mk .scalar "" "name" [], Node.mk .scalar "" "ex1" []] ++ ".tmpl") =
      "/tpl/examples/ex1.tmpl" :=
  ⟨patchExamplesNode_total_on_mapping_elements
      (Node.mk .document "" ""
        [Node.mk .mapping "" ""
          [Node.mk .scalar "" "examples" [],
           Node.mk .sequence "" ""
            [Node.mk .mapping "" ""
              [Node.mk .scalar "" "name" [], Node.mk .scalar "" "ex1" []]]]])
      (Node.mk .sequence "" ""
        [Node.mk .mapping "" "" [Node.mk .scalar "" "name" [], Node.mk .scalar "" "ex1" []]])
      "/tpl"
      (Node.mk .mapping "" "" [Node.mk .scalar "" "name" [], Node.mk .scalar "" "ex1" []])
      (by simp [findNodeByKey, findInList, findInPairs])
      rfl (by decide) rfl (by decide),
   by decide⟩

theorem splitSlash_length_pos : ∀ cs : List Char, 0 < (splitSlash cs).length := by
  intro cs
  induction cs with
  | nil => simp [splitSlash]
  | cons c rest ih =>
    rw [splitSlash]
    by_cases hc : c = '/'
    · simp [hc]
    · rw [if_neg hc]
      cases hs : splitSlash rest with
      | nil => simp
      | cons g gs => simp

theorem splitSlash_length_of_no_slash :
    ∀ cs : List Char, '/' ∉ cs → (splitSlash cs).length = 1 := by
  intro cs
  induction cs with
  | nil => intro _; simp [splitSlash]
  | cons c rest ih =>
    intro h
    have hc : ¬ c = '/' := fun hh => h (hh ▸ List.mem_cons_self c rest)
    have hrest : '/' ∉ rest := fun hh => h (List.mem_cons_of_mem c hh)
    rw [splitSlash, if_neg hc]
    cases hs : splitSlash rest with
    | nil => simp
    | cons g gs =>
      have := ih hrest
      rw [hs] at this
      simpa using this

/-- Claim C9: the `pieces[len(pieces)-2]` access at the top of `overrideYAML`
is in bounds exactly when the source file path splits into at least two
`/`-separated segments; for a path containing no `/` the Go index is `-1`,
i.e. out of range, so `overrideYAML` (reached from `Product.ApplyOverrides`
and `Resource.ApplyOverrides`) is panic-free only under that precondition. -/
theorem overrideProductName_requires_two_segments :
    (∀ f : List Char,
      (overrideProductName f).isSome ↔ 2 ≤ (splitSlash f).length) ∧
    (∀ f : List Char, '/' ∉ f → overrideProductName f = none) := by
  have main : ∀ f : List Char,
      (overrideProductName f).isSome ↔ 2 ≤ (splitSlash f).length := by
    intro f
    have hpos := splitSlash_length_pos f
    rw [overrideProductName]
    by_cases h2 : 2 ≤ (splitSlash f).length
    · rw [goIndex, if_neg (by push_cast; omega)]
      simp only [h2, iff_true]
      have hb : (((splitSlash f).length : Int) - 2).toNat < (splitSlash f).length := by
        omega
      rw [List.get?_eq_get hb]
      simp
    · rw [goIndex, if_pos (by push_cast; omega)]
      simpa using h2
  refine ⟨main, fun f hf => ?_⟩
  have hlen := splitSlash_length_of_no_slash f hf
  have := (main f).not
  rw [Option.not_isSome_iff_eq_none] at this
  exact this.mpr (by omega)

/-- Witness for C9: the one-segment path `disk.yaml` has no `/`, and the
product-name access indeed fails (index out of range), while a two-segment
path succeeds. -/
theorem overrideProductName_requires_two_segments_witness :
    overrideProductName ['d', 'i', 's', 'k', '.', 'y', 'a', 'm', 'l'] = none ∧
    (overrideProductName ['a', '/', 'b']).isSome = true :=
  ⟨overrideProductName_requires_two_segments.2 _ (by decide),
   (overrideProductName_requires_two_segments.1 _).mpr (by decide)⟩

end MagicAnsible
